import Mathlib

/-!
Verification development for the wire.js repository.

The repository excerpt contains the debug observer plugin (src/wire/debug.js),
a test fixture and the README.  The wiring engine itself (reference resolver,
dependency graph builder, lifecycle engine, context manager, plugin host) is
not part of the excerpt, so those components are modelled from the natural
language specification; every such definition carries a doc comment starting
with the words Modelled from the spec.  The debug plugin definitions are
translated directly from src/wire/debug.js.
-/

namespace Wire

/-- Component names in a wiring spec. -/
abbrev Name := String

/-- Modelled from the spec: a component definition, reduced to the data the
dependency graph builder consumes, namely the list of names referenced from
its constructor arguments, property map and init arguments, in order of
appearance.  The missing engine source is the authority being reconstructed. -/
structure CompDef where
  refs : List Name
  deriving Repr, DecidableEq

/-- Modelled from the spec: a wiring spec is an ordered mapping from component
name to component definition. -/
abbrev WSpec := List (Name × CompDef)

/-- Names declared by a spec, in declaration order. -/
def declaredNames (s : WSpec) : List Name := s.map Prod.fst

/-- Lookup of the first definition declared under a name. -/
def findDef : WSpec → Name → Option CompDef
  | [], _ => none
  | (m, d) :: rest, n => if m = n then some d else findDef rest n

/-- Modelled from the spec: error kinds of the dependency graph builder,
CircularReferenceError for cycles and UnresolvedReferenceError for dangling
references. -/
inductive WireErr where
  | circularReference
  | unresolvedReference
  deriving Repr, DecidableEq

/-- Modelled from the spec: lifecycle states of a component. -/
inductive Status where
  | pending
  | created
  | configured
  | initialized
  | destroyed
  deriving Repr, DecidableEq

/-- Modelled from the spec: a progress notification broadcast on a lifecycle
transition, a tuple of target, status and spec. -/
structure Notif where
  target : Name
  status : Status
  spec : CompDef
  deriving Repr, DecidableEq

/-- Modelled from the spec: a fully wired component instance owned by a
context.  The value is an abstract instance identifier. -/
structure Entry where
  name : Name
  value : Nat
  status : Status
  cspec : CompDef
  deriving Repr, DecidableEq

/-- Modelled from the spec: a context is its own frame of owned instances
followed by the frames of its ancestors, nearest first. -/
abbrev Context := List (List Entry)

/-- Lookup of an instance value in one frame of owned entries. -/
def lookupEntry : List Entry → Name → Option Nat
  | [], _ => none
  | e :: rest, n => if e.name = n then some e.value else lookupEntry rest n

/-- Modelled from the spec: reference resolution, own already created
components first, then recursively the ancestor contexts. -/
def resolveCtx : Context → Name → Option Nat
  | [], _ => none
  | f :: rest, n =>
    match lookupEntry f n with
    | some v => some v
    | none => resolveCtx rest n

/-- Resolvability of a name through an ancestor chain, as a Boolean. -/
def extOf (parent : Context) (n : Name) : Bool := (resolveCtx parent n).isSome

/-- Modelled from the spec: sequential visit of a list of referenced names by
a given visitor, threading the creation order and propagating the first
failure. -/
def visitList (vf : List Name → Name → Option (Except WireErr (List Name))) :
    List Name → List Name → Option (Except WireErr (List Name))
  | done, [] => some (Except.ok done)
  | done, r :: rest =>
    match vf done r with
    | some (Except.ok done2) => visitList vf done2 rest
    | other => other

/-- Modelled from the spec: depth first traversal of the reference graph with
explicit in-progress (grey) marking to detect cycles.  A name already finished
is skipped, a name currently in progress is a cycle, an undeclared name must
resolve through the ancestor chain or is a dangling reference, and a declared
name first visits its references and is then appended to the creation order.
The fuel argument bounds the recursion depth; none signals exhausted fuel and
is proved unreachable for the fuel used by buildOrder. -/
def visit (s : WSpec) (ext : Name → Bool) : Nat → List Name → List Name → Name →
    Option (Except WireErr (List Name))
  | 0, _, _, _ => none
  | fuel' + 1, grey, done, n =>
    if n ∈ done then some (Except.ok done)
    else if n ∈ grey then some (Except.error WireErr.circularReference)
    else
      match findDef s n with
      | none =>
        if ext n then some (Except.ok done)
        else some (Except.error WireErr.unresolvedReference)
      | some d =>
        match visitList (visit s ext fuel' (n :: grey)) done d.refs with
        | some (Except.ok done2) => some (Except.ok (done2 ++ [n]))
        | other => other

/-- Modelled from the spec: the toplevel loop of the dependency graph builder,
visiting every declared component in spec declaration order. -/
def visitTop (s : WSpec) (ext : Name → Bool) (fuel : Nat) (done : List Name) :
    List Name → Option (Except WireErr (List Name))
  | [] => some (Except.ok done)
  | n :: rest =>
    match visit s ext fuel [] done n with
    | some (Except.ok done2) => visitTop s ext fuel done2 rest
    | other => other

/-- Modelled from the spec: the dependency graph builder produces the creation
order for a spec, a topological order of the reference graph, with ties broken
by visiting declarations and references in declaration order. -/
def buildOrder (s : WSpec) (ext : Name → Bool) : Option (Except WireErr (List Name)) :=
  visitTop s ext (s.length + 1) [] (declaredNames s)

/-- Modelled from the spec: one lifecycle transition of the per component
state machine. -/
def nextStatus : Status → Status
  | Status.pending => Status.created
  | Status.created => Status.configured
  | Status.configured => Status.initialized
  | st => st

/-- Status of a component after the three wiring transitions have run. -/
def finalStatus : Status := nextStatus (nextStatus (nextStatus Status.pending))

/-- Statuses announced during wiring, in emission order. -/
def lifecycleStatuses : List Status :=
  [Status.created, Status.configured, Status.initialized]

/-- Definition declared for a name, defaulting to an empty definition. -/
def defOf (s : WSpec) (n : Name) : CompDef := (findDef s n).getD ⟨[]⟩

/-- Modelled from the spec: the progress notifications emitted while one
component passes through the created, configured and initialized transitions. -/
def compNotifs (s : WSpec) (n : Name) : List Notif :=
  lifecycleStatuses.map fun st => ⟨n, st, defOf s n⟩

/-- Modelled from the spec: the owned entries of a freshly wired context, one
per element of the creation order, with fresh instance identifiers. -/
def entriesOf (s : WSpec) (i : Nat) : List Name → List Entry
  | [] => []
  | n :: rest => ⟨n, i, finalStatus, defOf s n⟩ :: entriesOf s (i + 1) rest

/-- Modelled from the spec: the observable outcome of wiring one context, the
owned instances in creation order and the emitted progress notifications. -/
structure WireResult where
  own : List Entry
  log : List Notif
  deriving Repr, DecidableEq

/-- Modelled from the spec: wiring a spec against an ancestor chain.  The
dependency graph builder produces the creation order, then the lifecycle
engine drives every component through its transitions, emitting progress
notifications. -/
def wireIn (parent : Context) (s : WSpec) : Option (Except WireErr WireResult) :=
  match buildOrder s (extOf parent) with
  | none => none
  | some (Except.error e) => some (Except.error e)
  | some (Except.ok ord) =>
    some (Except.ok ⟨entriesOf s 0 ord, ord.flatMap (compNotifs s)⟩)

/-- Modelled from the spec: wiring a root context with no ancestors. -/
def wireRoot (s : WSpec) : Option (Except WireErr WireResult) := wireIn [] s

/-- Modelled from the spec: destroying a context emits one destroyed
notification per owned component, in reverse creation order. -/
def destroyLog (own : List Entry) : List Notif :=
  own.reverse.map fun e => ⟨e.name, Status.destroyed, e.cspec⟩

/-- Reference edge of a spec: component a references component b. -/
def edge (s : WSpec) (a b : Name) : Prop :=
  ∃ d, findDef s a = some d ∧ b ∈ d.refs

/-- Presence of a reference cycle, a component that reaches itself through one
or more reference edges. -/
def HasRefCycle (s : WSpec) : Prop :=
  ∃ a, Relation.TransGen (edge s) a a

/-- Every reference of every declared component is either itself declared or
resolvable through the ancestor chain. -/
def RefsOk (s : WSpec) (ext : Name → Bool) : Prop :=
  ∀ p ∈ s, ∀ r ∈ p.2.refs, r ∈ declaredNames s ∨ ext r = true

instance (s : WSpec) (ext : Name → Bool) : Decidable (RefsOk s ext) :=
  inferInstanceAs (Decidable (∀ p ∈ s, ∀ r ∈ p.2.refs, r ∈ declaredNames s ∨ ext r = true))

/-- Position of the first occurrence of a name in a list. -/
def posOf : List Name → Name → Nat
  | [], _ => 0
  | b :: rest, a => if b = a then 0 else posOf rest a + 1

/-- Topological soundness of a creation order: every declared reference of a
listed component is itself listed, strictly earlier. -/
def TopoOrder (s : WSpec) (ord : List Name) : Prop :=
  ∀ c d r, findDef s c = some d → r ∈ d.refs → r ∈ declaredNames s → c ∈ ord →
    r ∈ ord ∧ posOf ord r < posOf ord c

/-- Invariant carried by the DFS along the list of finished components. -/
def GoodDone (s : WSpec) (done : List Name) : Prop :=
  done.Nodup ∧ (∀ x ∈ done, x ∈ declaredNames s) ∧ TopoOrder s done

theorem findDef_mem : ∀ {s : WSpec} {c : Name} {d : CompDef},
    findDef s c = some d → (c, d) ∈ s := by
  intro s
  induction s with
  | nil => intro c d h; simp [findDef] at h
  | cons p rest ih =>
    intro c d h
    obtain ⟨m, d0⟩ := p
    simp only [findDef] at h
    split at h
    · next heq =>
      injection h with h1
      subst heq h1
      exact List.mem_cons_self _ _
    · exact List.mem_cons_of_mem _ (ih h)

theorem mem_declared_of_findDef {s : WSpec} {c : Name} {d : CompDef}
    (h : findDef s c = some d) : c ∈ declaredNames s :=
  List.mem_map.2 ⟨(c, d), findDef_mem h, rfl⟩

theorem findDef_of_mem_declared : ∀ {s : WSpec} {c : Name},
    c ∈ declaredNames s → ∃ d, findDef s c = some d := by
  intro s
  induction s with
  | nil => intro c h; simp [declaredNames] at h
  | cons p rest ih =>
    intro c h
    obtain ⟨m, d0⟩ := p
    by_cases hm : m = c
    · exact ⟨d0, by simp [findDef, hm]⟩
    · have hc : c ∈ declaredNames rest := by
        simp only [declaredNames, List.map_cons, List.mem_cons] at h
        rcases h with h | h
        · exact absurd h.symm hm
        · exact h
      obtain ⟨d, hd⟩ := ih hc
      exact ⟨d, by simp [findDef, hm, hd]⟩

theorem posOf_lt_length : ∀ {l : List Name} {a : Name}, a ∈ l → posOf l a < l.length := by
  intro l
  induction l with
  | nil => intro a h; simp at h
  | cons b rest ih =>
    intro a h
    simp only [posOf]
    split
    · simp
    · next hb =>
      have ha : a ∈ rest := by
        rcases List.mem_cons.1 h with h1 | h1
        · exact absurd h1.symm hb
        · exact h1
      simpa [List.length_cons, Nat.succ_lt_succ_iff] using ih ha

theorem posOf_append_left : ∀ {l : List Name} {a : Name}, a ∈ l →
    ∀ l2, posOf (l ++ l2) a = posOf l a := by
  intro l
  induction l with
  | nil => intro a h; simp at h
  | cons b rest ih =>
    intro a h l2
    simp only [List.cons_append, posOf]
    split
    · rfl
    · next hb =>
      have ha : a ∈ rest := by
        rcases List.mem_cons.1 h with h1 | h1
        · exact absurd h1.symm hb
        · exact h1
      show posOf (rest ++ l2) a + 1 = posOf rest a + 1
      rw [ih ha]

theorem posOf_append_self : ∀ {l : List Name} {a : Name}, a ∉ l →
    posOf (l ++ [a]) a = l.length := by
  intro l
  induction l with
  | nil => intro a _; simp [posOf]
  | cons b rest ih =>
    intro a h
    have hb : b ≠ a := fun he => h (he ▸ List.mem_cons_self _ _)
    have ha : a ∉ rest := fun hm => h (List.mem_cons_of_mem _ hm)
    simp only [List.cons_append, posOf, hb, if_false, List.length_cons]
    show posOf (rest ++ [a]) a + 1 = rest.length + 1
    rw [ih ha]

theorem topoOrder_append {s : WSpec} {done : List Name} {n : Name} {d : CompDef}
    (hn : findDef s n = some d) (hdone : TopoOrder s done) (hnot : n ∉ done)
    (hrefs : ∀ r ∈ d.refs, r ∈ declaredNames s → r ∈ done) :
    TopoOrder s (done ++ [n]) := by
  intro c dc r hc hr hrd hcmem
  rcases List.mem_append.1 hcmem with hcl | hcr
  · obtain ⟨hrmem, hlt⟩ := hdone c dc r hc hr hrd hcl
    refine ⟨List.mem_append_left _ hrmem, ?_⟩
    rw [posOf_append_left hrmem, posOf_append_left hcl]
    exact hlt
  · have hcn : c = n := by simpa using hcr
    subst hcn
    have hdc : dc = d := by
      rw [hn] at hc
      injection hc with h1
      exact h1.symm
    subst hdc
    have hrdone : r ∈ done := hrefs r hr hrd
    refine ⟨List.mem_append_left _ hrdone, ?_⟩
    rw [posOf_append_left hrdone, posOf_append_self hnot]
    exact posOf_lt_length hrdone

theorem visit_sound (s : WSpec) (ext : Name → Bool) : ∀ fuel : Nat,
    (∀ grey done n done2, visit s ext fuel grey done n = some (Except.ok done2) →
      GoodDone s done →
      (∃ t, done2 = done ++ t ∧ ∀ x ∈ t, x ∉ grey) ∧ GoodDone s done2 ∧
        (n ∈ done2 ∨ (n ∉ declaredNames s ∧ ext n = true))) ∧
    (∀ rs grey done done2, visitList (visit s ext fuel grey) done rs = some (Except.ok done2) →
      GoodDone s done →
      (∃ t, done2 = done ++ t ∧ ∀ x ∈ t, x ∉ grey) ∧ GoodDone s done2 ∧
        (∀ r ∈ rs, r ∈ done2 ∨ (r ∉ declaredNames s ∧ ext r = true))) := by
  intro fuel
  induction fuel with
  | zero =>
    constructor
    · intro grey done n done2 h _
      simp [visit] at h
    · intro rs grey done done2 h hg
      cases rs with
      | nil =>
        rw [visitList] at h
        injection h with h1
        injection h1 with h2
        subst h2
        exact ⟨⟨[], by simp, by simp⟩, hg, by simp⟩
      | cons r rest =>
        rw [visitList] at h
        simp [visit] at h
  | succ f ih =>
    have hv : ∀ grey done n done2,
        visit s ext (f + 1) grey done n = some (Except.ok done2) →
        GoodDone s done →
        (∃ t, done2 = done ++ t ∧ ∀ x ∈ t, x ∉ grey) ∧ GoodDone s done2 ∧
          (n ∈ done2 ∨ (n ∉ declaredNames s ∧ ext n = true)) := by
      intro grey done n done2 h hg
      rw [visit] at h
      split at h
      · next hmem =>
        injection h with h1
        injection h1 with h2
        subst h2
        exact ⟨⟨[], by simp, by simp⟩, hg, Or.inl hmem⟩
      · next hnd =>
        split at h
        · next hngrey => simp at h
        · next hng =>
          split at h
          · next hfind =>
            split at h
            · next hext =>
              injection h with h1
              injection h1 with h2
              subst h2
              refine ⟨⟨[], by simp, by simp⟩, hg, Or.inr ⟨?_, hext⟩⟩
              intro hmem
              obtain ⟨d, hd⟩ := findDef_of_mem_declared hmem
              rw [hfind] at hd
              exact Option.noConfusion hd
            · simp at h
          · next d hfind =>
            split at h
            · next done2a hva =>
              injection h with h1
              injection h1 with h2
              subst h2
              obtain ⟨⟨t, hteq, htgrey⟩, hgd2, hmems⟩ :=
                (ih.2) d.refs (n :: grey) done done2a hva hg
              have hnn2 : n ∉ done2a := by
                intro hmem
                rw [hteq] at hmem
                rcases List.mem_append.1 hmem with hmem | hmem
                · exact hnd hmem
                · exact htgrey n hmem (List.mem_cons_self _ _)
              have hndecl : n ∈ declaredNames s := mem_declared_of_findDef hfind
              refine ⟨⟨t ++ [n], by rw [hteq, List.append_assoc], ?_⟩, ⟨?_, ?_, ?_⟩, Or.inl (by simp)⟩
              · intro x hx
                rcases List.mem_append.1 hx with hx | hx
                · exact fun hxg => htgrey x hx (List.mem_cons_of_mem _ hxg)
                · have hxn : x = n := by simpa using hx
                  subst hxn
                  exact hng
              · rw [List.nodup_append]
                exact ⟨hgd2.1, List.nodup_singleton _, by
                  intro x hx hx2
                  have hxn : x = n := by simpa using hx2
                  subst hxn
                  exact hnn2 hx⟩
              · intro x hx
                rcases List.mem_append.1 hx with hx | hx
                · exact hgd2.2.1 x hx
                · have hxn : x = n := by simpa using hx
                  subst hxn
                  exact hndecl
              · refine topoOrder_append hfind hgd2.2.2 hnn2 ?_
                intro r hr hrd
                rcases hmems r hr with hmem | hmem
                · exact hmem
                · exact absurd hrd hmem.1
            · next hne =>
              exact absurd h (hne done2)
    refine ⟨hv, ?_⟩
    intro rs
    induction rs with
    | nil =>
      intro grey done done2 h hg
      rw [visitList] at h
      injection h with h1
      injection h1 with h2
      subst h2
      exact ⟨⟨[], by simp, by simp⟩, hg, by simp⟩
    | cons r rest ihr =>
      intro grey done done2 h hg
      rw [visitList] at h
      split at h
      · next done2a hva =>
        obtain ⟨⟨ta, hta, htag⟩, hgda, hrmem⟩ := hv grey done r done2a hva hg
        obtain ⟨⟨tb, htb, htbg⟩, hgdb, hrest⟩ := ihr grey done2a done2 h hgda
        refine ⟨⟨ta ++ tb, by rw [htb, hta, List.append_assoc], ?_⟩, hgdb, ?_⟩
        · intro x hx
          rcases List.mem_append.1 hx with hx | hx
          · exact htag x hx
          · exact htbg x hx
        · intro r2 hr2
          rcases List.mem_cons.1 hr2 with hr2 | hr2
          · subst hr2
            rcases hrmem with hmem | hmem
            · exact Or.inl (by rw [htb]; exact List.mem_append_left _ hmem)
            · exact Or.inr hmem
          · exact hrest r2 hr2
      · next hne =>
        exact absurd h (hne done2)

theorem nodup_length_le_dedup {l1 l2 : List Name} (hn : l1.Nodup)
    (hsub : ∀ x ∈ l1, x ∈ l2) : l1.length ≤ l2.dedup.length := by
  have h1 : l1.toFinset.card = l1.length := List.toFinset_card_of_nodup hn
  have h2 : l2.toFinset.card = l2.dedup.length := List.card_toFinset l2
  have hs : l1.toFinset ⊆ l2.toFinset := by
    intro x hx
    rw [List.mem_toFinset] at hx ⊢
    exact hsub x hx
  calc l1.length = l1.toFinset.card := h1.symm
    _ ≤ l2.toFinset.card := Finset.card_le_card hs
    _ = l2.dedup.length := h2

theorem visit_fuel (s : WSpec) (ext : Name → Bool) : ∀ fuel : Nat,
    (∀ grey done n, grey.Nodup → (∀ g ∈ grey, g ∈ declaredNames s) →
      (declaredNames s).dedup.length + 1 ≤ fuel + grey.length →
      visit s ext fuel grey done n ≠ none) ∧
    (∀ rs grey done, grey.Nodup → (∀ g ∈ grey, g ∈ declaredNames s) →
      (declaredNames s).dedup.length + 1 ≤ fuel + grey.length →
      visitList (visit s ext fuel grey) done rs ≠ none) := by
  intro fuel
  induction fuel with
  | zero =>
    constructor
    · intro grey done n hnd hsub hb
      have := nodup_length_le_dedup hnd hsub
      omega
    · intro rs grey done hnd hsub hb
      have := nodup_length_le_dedup hnd hsub
      omega
  | succ f ih =>
    have hv : ∀ grey done n, grey.Nodup → (∀ g ∈ grey, g ∈ declaredNames s) →
        (declaredNames s).dedup.length + 1 ≤ f + 1 + grey.length →
        visit s ext (f + 1) grey done n ≠ none := by
      intro grey done n hnd hsub hb
      rw [visit]
      split
      · simp
      · split
        · simp
        · next hng =>
          split
          · split <;> simp
          · next d hfind =>
            have hne := (ih.2) d.refs (n :: grey) done
              (List.nodup_cons.2 ⟨hng, hnd⟩)
              (by
                intro g hg
                rcases List.mem_cons.1 hg with hg | hg
                · subst hg; exact mem_declared_of_findDef hfind
                · exact hsub g hg)
              (by simp only [List.length_cons]; omega)
            cases hva : visitList (visit s ext f (n :: grey)) done d.refs with
            | none => exact absurd hva hne
            | some res =>
              cases res with
              | ok d2 => simp
              | error e => simp
    refine ⟨hv, ?_⟩
    intro rs
    induction rs with
    | nil =>
      intro grey done _ _ _
      rw [visitList]
      simp
    | cons r rest ihr =>
      intro grey done hnd hsub hb
      rw [visitList]
      cases hvr : visit s ext (f + 1) grey done r with
      | none => exact absurd hvr (hv grey done r hnd hsub hb)
      | some res =>
        cases res with
        | ok d2 => exact ihr grey d2 hnd hsub hb
        | error e => simp

theorem visit_no_unres (s : WSpec) (ext : Name → Bool) (hok : RefsOk s ext) : ∀ fuel : Nat,
    (∀ grey done n, (n ∈ declaredNames s ∨ ext n = true) →
      visit s ext fuel grey done n ≠ some (Except.error WireErr.unresolvedReference)) ∧
    (∀ rs grey done, (∀ r ∈ rs, r ∈ declaredNames s ∨ ext r = true) →
      visitList (visit s ext fuel grey) done rs ≠ some (Except.error WireErr.unresolvedReference)) := by
  intro fuel
  induction fuel with
  | zero =>
    constructor
    · intro grey done n _
      simp [visit]
    · intro rs grey done _
      cases rs with
      | nil => rw [visitList]; simp
      | cons r rest => rw [visitList]; simp [visit]
  | succ f ih =>
    have hv : ∀ grey done n, (n ∈ declaredNames s ∨ ext n = true) →
        visit s ext (f + 1) grey done n ≠ some (Except.error WireErr.unresolvedReference) := by
      intro grey done n hn
      rw [visit]
      split
      · simp
      · split
        · simp
        · split
          · next hfind =>
            have hext : ext n = true := by
              rcases hn with hmem | hext
              · obtain ⟨d, hd⟩ := findDef_of_mem_declared hmem
                rw [hfind] at hd
                exact Option.noConfusion hd
              · exact hext
            simp [hext]
          · next d hfind =>
            have hrefs : ∀ r ∈ d.refs, r ∈ declaredNames s ∨ ext r = true := by
              intro r hr
              exact hok (n, d) (findDef_mem hfind) r hr
            have hnall := (ih.2) d.refs (n :: grey) done hrefs
            cases hva : visitList (visit s ext f (n :: grey)) done d.refs with
            | none => simp
            | some res =>
              cases res with
              | ok d2 => simp
              | error e =>
                intro hc
                simp only [Option.some.injEq, Except.error.injEq] at hc
                exact hnall (hva.trans (by rw [hc]))
    refine ⟨hv, ?_⟩
    intro rs
    induction rs with
    | nil =>
      intro grey done _
      rw [visitList]
      simp
    | cons r rest ihr =>
      intro grey done hall
      rw [visitList]
      cases hvr : visit s ext (f + 1) grey done r with
      | none => simp
      | some res =>
        cases res with
        | ok d2 => exact ihr grey d2 (fun r2 hr2 => hall r2 (List.mem_cons_of_mem _ hr2))
        | error e =>
          intro hc
          simp only [Option.some.injEq, Except.error.injEq] at hc
          exact hv grey done r (hall r (List.mem_cons_self _ _)) (hvr.trans (by rw [hc]))

theorem chainPath (s : WSpec) : ∀ grey : List Name,
    List.Chain' (fun a b => edge s b a) grey → ∀ n ∈ grey, ∀ g rest, grey = g :: rest →
    Relation.ReflTransGen (edge s) n g := by
  intro grey
  induction grey with
  | nil => intro _ n hn; simp at hn
  | cons g0 rest0 ih =>
    intro hchain n hn g rest heq
    injection heq with h1 h2
    subst h1 h2
    rcases List.mem_cons.1 hn with hng | hn2
    · subst hng
      exact Relation.ReflTransGen.refl
    · cases rest0 with
      | nil => simp at hn2
      | cons g3 rest3 =>
        obtain ⟨hRg, hch⟩ := List.chain'_cons.1 hchain
        have hpath : Relation.ReflTransGen (edge s) n g3 := ih hch n hn2 g3 rest3 rfl
        exact hpath.tail hRg

theorem visit_circ (s : WSpec) (ext : Name → Bool) : ∀ fuel : Nat,
    (∀ grey done n, List.Chain' (fun a b => edge s b a) grey →
      (∀ g rest, grey = g :: rest → edge s g n) →
      visit s ext fuel grey done n = some (Except.error WireErr.circularReference) →
      HasRefCycle s) ∧
    (∀ rs grey done g rest2, grey = g :: rest2 →
      List.Chain' (fun a b => edge s b a) grey → (∀ r ∈ rs, edge s g r) →
      visitList (visit s ext fuel grey) done rs = some (Except.error WireErr.circularReference) →
      HasRefCycle s) := by
  intro fuel
  induction fuel with
  | zero =>
    constructor
    · intro grey done n _ _ h
      simp [visit] at h
    · intro rs grey done g rest2 _ _ _ h
      cases rs with
      | nil => rw [visitList] at h; simp at h
      | cons r rest => rw [visitList] at h; simp [visit] at h
  | succ f ih =>
    have hv : ∀ grey done n, List.Chain' (fun a b => edge s b a) grey →
        (∀ g rest, grey = g :: rest → edge s g n) →
        visit s ext (f + 1) grey done n = some (Except.error WireErr.circularReference) →
        HasRefCycle s := by
      intro grey done n hchain hlink h
      rw [visit] at h
      split at h
      · simp at h
      · split at h
        · next hngrey =>
          cases grey with
          | nil => simp at hngrey
          | cons g rest =>
            have hedge : edge s g n := hlink g rest rfl
            have hpath : Relation.ReflTransGen (edge s) n g :=
              chainPath s _ hchain n hngrey g rest rfl
            exact ⟨n, Relation.TransGen.tail' hpath hedge⟩
        · next hng =>
          split at h
          · split at h <;> simp at h
          · next d hfind =>
            split at h
            · simp at h
            · next hne =>
              refine (ih.2) d.refs (n :: grey) done n grey rfl ?_ ?_ h
              · cases grey with
                | nil => simp
                | cons g0 rest0 =>
                  exact List.chain'_cons.2 ⟨hlink g0 rest0 rfl, hchain⟩
              · intro r hr
                exact ⟨d, hfind, hr⟩
    refine ⟨hv, ?_⟩
    intro rs
    induction rs with
    | nil =>
      intro grey done g rest2 _ _ _ h
      rw [visitList] at h
      simp at h
    | cons r rest ihr =>
      intro grey done g rest2 hgrey hchain hrefs h
      rw [visitList] at h
      split at h
      · next done2a hvr =>
        exact ihr grey done2a g rest2 hgrey hchain
          (fun r2 hr2 => hrefs r2 (List.mem_cons_of_mem _ hr2)) h
      · next hne =>
        refine hv grey done r hchain ?_ h
        intro g2 rest3 heq
        subst hgrey
        injection heq with h1 h2
        subst h1
        exact hrefs r (List.mem_cons_self _ _)

theorem visitTop_sound (s : WSpec) (ext : Name → Bool) (fuel : Nat) : ∀ ns done ord,
    visitTop s ext fuel done ns = some (Except.ok ord) → GoodDone s done →
    GoodDone s ord ∧ (∃ t, ord = done ++ t) ∧
      ∀ n ∈ ns, n ∈ declaredNames s → n ∈ ord := by
  intro ns
  induction ns with
  | nil =>
    intro done ord h hg
    rw [visitTop] at h
    injection h with h1
    injection h1 with h2
    subst h2
    exact ⟨hg, ⟨[], by simp⟩, by simp⟩
  | cons n rest ih =>
    intro done ord h hg
    rw [visitTop] at h
    split at h
    · next done2 hvn =>
      obtain ⟨⟨t1, ht1, _⟩, hg2, hmem⟩ := (visit_sound s ext fuel).1 [] done n done2 hvn hg
      obtain ⟨hgo, ⟨t2, ht2⟩, hns⟩ := ih done2 ord h hg2
      refine ⟨hgo, ⟨t1 ++ t2, by rw [ht2, ht1, List.append_assoc]⟩, ?_⟩
      intro m hm hmd
      rcases List.mem_cons.1 hm with hm | hm
      · subst hm
        rcases hmem with hmem | hmem
        · rw [ht2]; exact List.mem_append_left _ hmem
        · exact absurd hmd hmem.1
      · exact hns m hm hmd
    · next hne =>
      exact absurd h (hne ord)

theorem visitTop_ne_none (s : WSpec) (ext : Name → Bool) (fuel : Nat)
    (hfuel : (declaredNames s).dedup.length + 1 ≤ fuel) : ∀ ns done,
    visitTop s ext fuel done ns ≠ none := by
  intro ns
  induction ns with
  | nil =>
    intro done
    rw [visitTop]
    simp
  | cons n rest ih =>
    intro done
    rw [visitTop]
    cases hvn : visit s ext fuel [] done n with
    | none =>
      exact absurd hvn ((visit_fuel s ext fuel).1 [] done n List.nodup_nil (by simp)
        (by simpa using hfuel))
    | some res =>
      cases res with
      | ok done2 => exact ih done2
      | error e => simp

theorem visitTop_no_unres (s : WSpec) (ext : Name → Bool) (fuel : Nat)
    (hok : RefsOk s ext) : ∀ ns done, (∀ n ∈ ns, n ∈ declaredNames s ∨ ext n = true) →
    visitTop s ext fuel done ns ≠ some (Except.error WireErr.unresolvedReference) := by
  intro ns
  induction ns with
  | nil =>
    intro done _
    rw [visitTop]
    simp
  | cons n rest ih =>
    intro done hall
    rw [visitTop]
    cases hvn : visit s ext fuel [] done n with
    | none => simp
    | some res =>
      cases res with
      | ok done2 => exact ih done2 (fun m hm => hall m (List.mem_cons_of_mem _ hm))
      | error e =>
        intro hc
        simp only [Option.some.injEq, Except.error.injEq] at hc
        exact (visit_no_unres s ext hok fuel).1 [] done n (hall n (List.mem_cons_self _ _))
          (hvn.trans (by rw [hc]))

theorem visitTop_circ (s : WSpec) (ext : Name → Bool) (fuel : Nat) : ∀ ns done,
    visitTop s ext fuel done ns = some (Except.error WireErr.circularReference) →
    HasRefCycle s := by
  intro ns
  induction ns with
  | nil =>
    intro done h
    rw [visitTop] at h
    simp at h
  | cons n rest ih =>
    intro done h
    rw [visitTop] at h
    split at h
    · next done2 hvn => exact ih done2 h
    · next hne =>
      exact (visit_circ s ext fuel).1 [] done n (by simp) (by intro g r2 h2; simp at h2) h

theorem buildOrder_ok {s : WSpec} {ext : Name → Bool} {ord : List Name}
    (h : buildOrder s ext = some (Except.ok ord)) :
    GoodDone s ord ∧ ∀ n ∈ declaredNames s, n ∈ ord := by
  obtain ⟨hg, _, hall⟩ := visitTop_sound s ext (s.length + 1) (declaredNames s) [] ord h
    ⟨List.nodup_nil, by simp, by intro c d r _ _ _ hc; simp at hc⟩
  exact ⟨hg, fun n hn => hall n hn hn⟩

theorem buildOrder_ne_none (s : WSpec) (ext : Name → Bool) : buildOrder s ext ≠ none := by
  refine visitTop_ne_none s ext (s.length + 1) ?_ (declaredNames s) []
  have h1 : (declaredNames s).dedup.length ≤ (declaredNames s).length :=
    (List.dedup_sublist (declaredNames s)).length_le
  have h2 : (declaredNames s).length = s.length := List.length_map _ _
  omega

theorem buildOrder_no_unres {s : WSpec} {ext : Name → Bool} (hok : RefsOk s ext) :
    buildOrder s ext ≠ some (Except.error WireErr.unresolvedReference) :=
  visitTop_no_unres s ext (s.length + 1) hok (declaredNames s) []
    (fun n hn => Or.inl hn)

theorem buildOrder_circ_cycle {s : WSpec} {ext : Name → Bool}
    (h : buildOrder s ext = some (Except.error WireErr.circularReference)) :
    HasRefCycle s :=
  visitTop_circ s ext (s.length + 1) (declaredNames s) [] h

theorem transGen_exists_first {α : Type} {r : α → α → Prop} {a c : α}
    (h : Relation.TransGen r a c) : ∃ b, r a b := by
  induction h with
  | single h1 => exact ⟨_, h1⟩
  | tail _ _ ih => exact ih

theorem transGen_pos {s : WSpec} {ext : Name → Bool} {ord : List Name}
    (h : buildOrder s ext = some (Except.ok ord)) :
    ∀ a b, Relation.TransGen (edge s) a b → b ∈ declaredNames s →
      posOf ord b < posOf ord a := by
  obtain ⟨⟨hnd, hsubd, htopo⟩, hcomp⟩ := buildOrder_ok h
  intro a b hab
  induction hab with
  | single hedge =>
    intro hbd
    obtain ⟨d, hfind, hr⟩ := hedge
    have hamem : _ ∈ ord := hcomp _ (mem_declared_of_findDef hfind)
    exact (htopo _ d _ hfind hr hbd hamem).2
  | tail hab2 hbc ih =>
    intro hcd
    obtain ⟨d, hfind, hr⟩ := hbc
    have hbd : _ ∈ declaredNames s := mem_declared_of_findDef hfind
    have hbmem : _ ∈ ord := hcomp _ hbd
    exact Nat.lt_trans (htopo _ d _ hfind hr hcd hbmem).2 (ih hbd)

theorem buildOrder_ok_acyclic {s : WSpec} {ext : Name → Bool} {ord : List Name}
    (h : buildOrder s ext = some (Except.ok ord)) : ¬HasRefCycle s := by
  rintro ⟨a, ha⟩
  obtain ⟨b, hab⟩ := transGen_exists_first ha
  obtain ⟨d, hfind, _⟩ := hab
  have had : a ∈ declaredNames s := mem_declared_of_findDef hfind
  exact Nat.lt_irrefl _ (transGen_pos h a a ha had)

theorem buildOrder_acyclic_ok {s : WSpec} {ext : Name → Bool}
    (hacy : ¬HasRefCycle s) (hok : RefsOk s ext) :
    ∃ ord, buildOrder s ext = some (Except.ok ord) := by
  cases h : buildOrder s ext with
  | none => exact absurd h (buildOrder_ne_none s ext)
  | some res =>
    cases res with
    | ok ord => exact ⟨ord, rfl⟩
    | error e =>
      cases e with
      | circularReference => exact absurd (buildOrder_circ_cycle h) hacy
      | unresolvedReference => exact absurd h (buildOrder_no_unres hok)

theorem buildOrder_cycle_err {s : WSpec} {ext : Name → Bool}
    (hcyc : HasRefCycle s) (hok : RefsOk s ext) :
    buildOrder s ext = some (Except.error WireErr.circularReference) := by
  cases h : buildOrder s ext with
  | none => exact absurd h (buildOrder_ne_none s ext)
  | some res =>
    cases res with
    | ok ord => exact absurd hcyc (buildOrder_ok_acyclic h)
    | error e =>
      cases e with
      | circularReference => rfl
      | unresolvedReference => exact absurd h (buildOrder_no_unres hok)

theorem wireIn_ok_inv {parent : Context} {s : WSpec} {res : WireResult}
    (h : wireIn parent s = some (Except.ok res)) :
    ∃ ord, buildOrder s (extOf parent) = some (Except.ok ord) ∧
      res.own = entriesOf s 0 ord ∧ res.log = ord.flatMap (compNotifs s) := by
  rw [wireIn] at h
  split at h
  · exact Option.noConfusion h
  · next e heq =>
    injection h with h1
    exact Except.noConfusion h1
  · next ord heq =>
    injection h with h1
    injection h1 with h2
    exact ⟨ord, heq, by rw [← h2], by rw [← h2]⟩

theorem entriesOf_names (s : WSpec) : ∀ (ord : List Name) (i : Nat),
    (entriesOf s i ord).map Entry.name = ord := by
  intro ord
  induction ord with
  | nil => intro i; rfl
  | cons n rest ih =>
    intro i
    simp only [entriesOf, List.map_cons, ih]

theorem entriesOf_fields (s : WSpec) : ∀ (ord : List Name) (i : Nat), ∀ e ∈ entriesOf s i ord,
    e.status = finalStatus ∧ e.cspec = defOf s e.name := by
  intro ord
  induction ord with
  | nil => intro i e he; simp [entriesOf] at he
  | cons n rest ih =>
    intro i e he
    rw [entriesOf] at he
    rcases List.mem_cons.1 he with he | he
    · subst he
      exact ⟨rfl, rfl⟩
    · exact ih (i + 1) e he

theorem lookupEntry_none : ∀ {es : List Entry} {n : Name},
    (∀ e ∈ es, e.name ≠ n) → lookupEntry es n = none := by
  intro es
  induction es with
  | nil => intro n _; rfl
  | cons e rest ih =>
    intro n h
    rw [lookupEntry]
    rw [if_neg (h e (List.mem_cons_self _ _))]
    exact ih fun e2 he2 => h e2 (List.mem_cons_of_mem _ he2)

theorem compNotifs_target {s : WSpec} {n : Name} : ∀ nf ∈ compNotifs s n,
    nf.target = n ∧ nf.status ∈ lifecycleStatuses ∧ nf.spec = defOf s n := by
  intro nf hnf
  simp only [compNotifs, List.mem_map] at hnf
  obtain ⟨st, hst, heq⟩ := hnf
  subst heq
  exact ⟨rfl, hst, rfl⟩

theorem log_filter_not_mem {s : WSpec} {c : Name} : ∀ ord : List Name, c ∉ ord →
    (ord.flatMap (compNotifs s)).filter (fun nf => nf.target == c) = [] := by
  intro ord
  induction ord with
  | nil => intro _; rfl
  | cons n rest ih =>
    intro hc
    rw [List.flatMap_cons, List.filter_append, ih (fun h => hc (List.mem_cons_of_mem _ h)),
      List.append_nil]
    apply List.filter_eq_nil_iff.2
    intro nf hnf
    have ht := (compNotifs_target nf hnf).1
    have hnc : n ≠ c := fun h => hc (h ▸ List.mem_cons_self _ _)
    simp [ht, hnc]

theorem log_filter {s : WSpec} {c : Name} : ∀ ord : List Name, ord.Nodup → c ∈ ord →
    (ord.flatMap (compNotifs s)).filter (fun nf => nf.target == c) = compNotifs s c := by
  intro ord
  induction ord with
  | nil => intro _ hc; simp at hc
  | cons n rest ih =>
    intro hnd hc
    rw [List.flatMap_cons, List.filter_append]
    by_cases hnc : n = c
    · subst hnc
      have hnr : n ∉ rest := (List.nodup_cons.1 hnd).1
      rw [log_filter_not_mem rest hnr, List.append_nil]
      apply List.filter_eq_self.2
      intro nf hnf
      simp [(compNotifs_target nf hnf).1]
    · have hcr : c ∈ rest := by
        rcases List.mem_cons.1 hc with h | h
        · exact absurd h.symm hnc
        · exact h
      have hblock : (compNotifs s n).filter (fun nf => nf.target == c) = [] := by
        apply List.filter_eq_nil_iff.2
        intro nf hnf
        simp [(compNotifs_target nf hnf).1, hnc]
      rw [hblock, List.nil_append]
      exact ih (List.nodup_cons.1 hnd).2 hcr

theorem destroyLog_targets (own : List Entry) :
    (destroyLog own).map Notif.target = (own.map Entry.name).reverse := by
  simp [destroyLog, List.map_map, Function.comp]

theorem destroyLog_count (own : List Entry) (c : Name) :
    ((destroyLog own).filter (fun nf => nf.target == c)).length =
      (own.map Entry.name).count c := by
  rw [← List.countP_eq_length_filter]
  simp only [destroyLog, List.countP_map, List.countP_reverse]
  rw [List.count, List.countP_map]
  rfl

/-! Embedding of src/wire/debug.js.  Javascript values are modelled as a
dynamic type so that property access on an object of the wrong shape is
observable, promises are modelled by their settled outcome, and the calls the
plugin makes to console.log and console.error are collected as a list. -/

/-- Dynamic Javascript value: undefined, string, number, object with a list of
named fields, or a settled promise. -/
inductive JVal where
  | undef
  | str (s : String)
  | num (n : Int)
  | obj (fields : List (String × JVal))
  | promise (outcome : Except JVal JVal)

/-- Field lookup in an object field list, undefined when absent. -/
def lookupField : List (String × JVal) → String → JVal
  | [], _ => JVal.undef
  | (k2, v) :: rest, k => if k2 = k then v else lookupField rest k

/-- Property access, undefined on a value that is not an object. -/
def getField : JVal → String → JVal
  | JVal.obj fs, k => lookupField fs k
  | _, _ => JVal.undef

/-- One call to console.log or console.error made by the debug plugin.  The
timing prefix produced by the time helper is omitted; the message, the value
arguments and the spec argument are kept. -/
inductive ConsoleItem where
  | logged (msg : String) (target : JVal) (spc : JVal)
  | errored (msg : String) (e : JVal) (spc : JVal)
  | erroredRaw (e : JVal)

/-- State seen by the debug plugin handlers: the progress update object it was
handed and the console output produced so far. -/
structure DebugState where
  update : JVal
  console : List ConsoleItem

/-- Settled-promise semantics of p.then(onOk, onErr): the matching handler
runs, and a value that is not a promise has no then method, a TypeError,
modelled as none. -/
def runThen (p : JVal) (onOk onErr : JVal → List ConsoleItem) :
    Option (List ConsoleItem) :=
  match p with
  | JVal.promise (Except.ok v) => some (onOk v)
  | JVal.promise (Except.error e) => some (onErr e)
  | _ => none

/-- Translation of logUpdate in debug.js lines 90 to 94: the success handler
logs the message, the target passed to the handler and update.spec. -/
def logUpdateH (msg : String) (spc : JVal) (target : JVal) : List ConsoleItem :=
  [ConsoleItem.logged msg target spc]

/-- Translation of the local logError in debug.js lines 96 to 101: the failure
handler logs the message, the error and update.spec, then the error again. -/
def logErrorH (msg : String) (spc : JVal) (e : JVal) : List ConsoleItem :=
  [ConsoleItem.errored msg e spc, ConsoleItem.erroredRaw e]

/-- Translation of logProgress in debug.js lines 89 to 107: it reads the
fields created, configured, initialized and destroyed of the update object,
attaching a success and a failure handler to each via then, every handler
reading update.spec.  The update object itself is only read, never written. -/
def logProgressS (st : DebugState) : Option DebugState :=
  let u := st.update
  let spc := getField u "spec"
  match runThen (getField u "created") (logUpdateH "Object created" spc)
      (logErrorH "Object create ERROR" spc) with
  | none => none
  | some e1 =>
    match runThen (getField u "configured") (logUpdateH "Object configured" spc)
        (logErrorH "Object configure ERROR" spc) with
    | none => none
    | some e2 =>
      match runThen (getField u "initialized") (logUpdateH "Object initialized" spc)
          (logErrorH "Object initialize ERROR" spc) with
      | none => none
      | some e3 =>
        match runThen (getField u "destroyed") (logUpdateH "Object destroyed" spc)
            (logErrorH "Object destroy ERROR" spc) with
        | none => none
        | some e4 => some ⟨st.update, st.console ++ e1 ++ e2 ++ e3 ++ e4⟩

/-- Translation of the plugin entry debugPlugin in debug.js lines 124 to 159:
log Context init, then attach handlers to the ready and destroyed outcomes. -/
def debugPlugin (ready destroyed options : JVal) : Option (List ConsoleItem) :=
  let init := [ConsoleItem.logged "Context init" JVal.undef JVal.undef]
  match runThen ready (fun ctx => [ConsoleItem.logged "Context ready" ctx JVal.undef])
      (fun err => [ConsoleItem.errored "Context ERROR: " err JVal.undef,
        ConsoleItem.erroredRaw err]) with
  | none => none
  | some r1 =>
    match runThen destroyed
        (fun _ => [ConsoleItem.logged "Context destroyed" JVal.undef JVal.undef])
        (fun err => [ConsoleItem.errored "Context destroy ERROR" err JVal.undef]) with
    | none => none
    | some r2 => some (init ++ r1 ++ r2)

/-- Shape of a plugin module: debug.js returns an object whose single entry
point is named wire$plugin and takes the ready outcome, the destroy outcome
and the options. -/
structure PluginModule where
  «wire$plugin» : JVal → JVal → JVal → Option (List ConsoleItem)

/-- The module object returned by debug.js line 109 to 161. -/
def wireDebug : PluginModule := ⟨debugPlugin⟩

/-- A plugin declaration in a spec, identified by its module id. -/
abbrev PluginDecl := String

/-- Record of one invocation the plugin host performs. -/
structure PluginInvocation where
  decl : PluginDecl
  entry : String
  deriving Repr, DecidableEq

/-- Modelled from the spec: the plugin host of the missing engine instantiates
each declared plugin module and invokes its wire$plugin entry point exactly
once per context per plugin declaration, in declaration order. -/
def invokePlugins (decls : List PluginDecl) : List PluginInvocation :=
  decls.map fun d => ⟨d, "wire$plugin"⟩

/-- Internal state of the timer closure of createTimer in debug.js lines 45
to 48: the creation instant and the instant of the last call. -/
structure TimerState where
  start : Int
  split : Int

/-- Value returned by one call of the timer, debug.js lines 64 to 70: total
time since creation, split time since the previous call, and the string the
toString member renders. -/
structure TimeRec where
  total : Int
  split : Int
  str : String

/-- Translation of createTimer in debug.js lines 45 to 47: both the start and
the split instant are initialized to the current clock reading. -/
def createTimer (now : Int) : TimerState := ⟨now, now⟩

/-- Translation of getTime in debug.js lines 58 to 71: one call of the timer
at clock reading now returns the total and split times and updates the stored
split instant. -/
def getTime (st : TimerState) (now : Int) : TimeRec × TimerState :=
  (⟨now - st.start, now - st.split,
      toString (now - st.split) ++ "ms / " ++ toString (now - st.start) ++ "ms"⟩,
    ⟨st.start, now⟩)

/-- Sequence of timer results across a sequence of calls, one per clock
reading. -/
def runTimer (st : TimerState) : List Int → List TimeRec
  | [] => []
  | now :: rest =>
    let p := getTime st now
    p.1 :: runTimer p.2 rest

theorem runTimer_length : ∀ (nows : List Int) (st : TimerState),
    (runTimer st nows).length = nows.length := by
  intro nows
  induction nows with
  | nil => intro st; rfl
  | cons n rest ih => intro st; simp [runTimer, ih]

theorem runTimer_total_sum : ∀ (nows : List Int) (s0 sp : Int) (i : Nat)
    (hi : i < (runTimer ⟨s0, sp⟩ nows).length),
    ((runTimer ⟨s0, sp⟩ nows).get ⟨i, hi⟩).total =
      (((runTimer ⟨s0, sp⟩ nows).take (i + 1)).map TimeRec.split).sum + (sp - s0) := by
  intro nows
  induction nows with
  | nil =>
    intro s0 sp i hi
    simp [runTimer] at hi
  | cons n rest ih =>
    intro s0 sp i hi
    cases i with
    | zero =>
      show (⟨n - s0, n - sp, _⟩ : TimeRec).total =
        ((((getTime ⟨s0, sp⟩ n).1 :: runTimer ⟨s0, n⟩ rest).take 1).map TimeRec.split).sum
          + (sp - s0)
      simp [getTime]
    | succ j =>
      have hj : j < (runTimer ⟨s0, n⟩ rest).length := by
        have : (runTimer ⟨s0, sp⟩ (n :: rest)).length = (runTimer ⟨s0, n⟩ rest).length + 1 :=
          by simp [runTimer, getTime]
        omega
      have hstep := ih s0 n j hj
      show ((runTimer ⟨s0, n⟩ rest).get ⟨j, hj⟩).total =
        ((((getTime ⟨s0, sp⟩ n).1 :: runTimer ⟨s0, n⟩ rest).take (j + 2)).map
          TimeRec.split).sum + (sp - s0)
      rw [hstep]
      simp [getTime]
      ring

theorem runTimer_totals : ∀ (nows : List Int) (s0 sp : Int),
    (runTimer ⟨s0, sp⟩ nows).map TimeRec.total = nows.map (fun n => n - s0) := by
  intro nows
  induction nows with
  | nil => intro s0 sp; rfl
  | cons n rest ih => intro s0 sp; simp [runTimer, getTime, ih]

/-! Concrete inputs used by the claim theorems, their counterexamples and
their witnesses. -/

/-- Example spec: a controller referencing a logger. -/
def exSpec : WSpec := [("logger", ⟨[]⟩), ("controller", ⟨["logger"]⟩)]

/-- Result of wiring exSpec as a root context. -/
def exRes : WireResult :=
  ⟨[⟨"logger", 0, Status.initialized, ⟨[]⟩⟩,
    ⟨"controller", 1, Status.initialized, ⟨["logger"]⟩⟩],
   [⟨"logger", Status.created, ⟨[]⟩⟩, ⟨"logger", Status.configured, ⟨[]⟩⟩,
    ⟨"logger", Status.initialized, ⟨[]⟩⟩, ⟨"controller", Status.created, ⟨["logger"]⟩⟩,
    ⟨"controller", Status.configured, ⟨["logger"]⟩⟩,
    ⟨"controller", Status.initialized, ⟨["logger"]⟩⟩]⟩

/-- Example parent context owning one instance named name with value 7. -/
def exParent : Context := [[⟨"name", 7, Status.initialized, ⟨[]⟩⟩]]

/-- Child spec referencing the parent instance name. -/
def exChild : WSpec := [("controller", ⟨["name"]⟩)]

/-- Result of wiring exChild under exParent. -/
def exChildRes : WireResult :=
  ⟨[⟨"controller", 0, Status.initialized, ⟨["name"]⟩⟩],
   [⟨"controller", Status.created, ⟨["name"]⟩⟩,
    ⟨"controller", Status.configured, ⟨["name"]⟩⟩,
    ⟨"controller", Status.initialized, ⟨["name"]⟩⟩]⟩

/-- Pure two component cycle: a references b and b references a. -/
def exA : WSpec := [("a", ⟨["b"]⟩), ("b", ⟨["a"]⟩)]

/-- Spec containing the cycle a b a together with a dangling reference x that
the traversal encounters first. -/
def exMixed : WSpec := [("a", ⟨["x", "b"]⟩), ("b", ⟨["a"]⟩)]

/-- Acyclic spec with a dangling reference. -/
def exDangling : WSpec := [("a", ⟨["missing"]⟩)]

/-- Three components where a references c while b and c are independent: b is
declared before c yet c is created first, pulled in as a dependency of a. -/
def ex5 : WSpec := [("a", ⟨["c"]⟩), ("b", ⟨[]⟩), ("c", ⟨[]⟩)]

theorem edge_cases {s : WSpec} {x y : Name} (h : edge s x y) :
    ∃ d, (x, d) ∈ s ∧ y ∈ d.refs :=
  match h with
  | ⟨d, hf, hr⟩ => ⟨d, findDef_mem hf, hr⟩

theorem no_out_no_transGen {α : Type} {r : α → α → Prop} {a : α}
    (h : ∀ y, ¬r a y) : ∀ c, ¬Relation.TransGen r a c := by
  intro c hc
  obtain ⟨y, hy⟩ := transGen_exists_first hc
  exact h y hy

/-- Update object of the shape logProgress in debug.js actually dereferences:
per stage promise fields created, configured, initialized and destroyed, plus
the spec field. -/
def stageUpdate (c1 c2 c3 c4 : Except JVal JVal) (spc : JVal) : JVal :=
  JVal.obj [("created", JVal.promise c1), ("configured", JVal.promise c2),
    ("initialized", JVal.promise c3), ("destroyed", JVal.promise c4), ("spec", spc)]

/-- Progress notification shaped as the written contract describes it, an
object with fields target, status and spec only. -/
def tupleUpdate : JVal :=
  JVal.obj [("target", JVal.str "logger"), ("status", JVal.str "created"),
    ("spec", JVal.obj [])]

/-- Concrete debug plugin state whose update carries four resolved stage
promises. -/
def exDebugSt : DebugState :=
  ⟨stageUpdate (Except.ok (JVal.str "t")) (Except.ok (JVal.str "t"))
    (Except.ok (JVal.str "t")) (Except.ok (JVal.str "t")) (JVal.str "sp"), []⟩

/-- State produced by running the embedded logProgress on exDebugSt. -/
def exDebugSt2 : DebugState :=
  ⟨stageUpdate (Except.ok (JVal.str "t")) (Except.ok (JVal.str "t"))
    (Except.ok (JVal.str "t")) (Except.ok (JVal.str "t")) (JVal.str "sp"),
   [ConsoleItem.logged "Object created" (JVal.str "t") (JVal.str "sp"),
    ConsoleItem.logged "Object configured" (JVal.str "t") (JVal.str "sp"),
    ConsoleItem.logged "Object initialized" (JVal.str "t") (JVal.str "sp"),
    ConsoleItem.logged "Object destroyed" (JVal.str "t") (JVal.str "sp")]⟩

/-! Claim theorems. -/

/-- C1 counterexample: the spec exDangling has an acyclic reference graph, yet
wiring does not complete, it rejects with the unresolved reference error,
because the single reference is dangling.  This falsifies the claim that every
spec with an acyclic reference graph wires successfully. -/
theorem claim_C1_cex : ¬HasRefCycle exDangling ∧
    wireRoot exDangling = some (Except.error WireErr.unresolvedReference) := by
  constructor
  · rintro ⟨x, hx⟩
    have hstep : ∀ u v, edge exDangling u v → u = "a" ∧ v = "missing" := by
      intro u v he
      obtain ⟨d, hmem, hrefs⟩ := edge_cases he
      simp only [exDangling, List.mem_singleton, Prod.mk.injEq] at hmem
      obtain ⟨hu, hd⟩ := hmem
      subst hu
      subst hd
      exact ⟨rfl, by simpa using hrefs⟩
    cases hx with
    | single h1 =>
      obtain ⟨h2, h3⟩ := hstep x x h1
      rw [h2] at h3
      exact absurd h3 (by decide)
    | tail h2 hlast =>
      obtain ⟨y1, hxy⟩ := transGen_exists_first h2
      have h3 := (hstep x y1 hxy).1
      have h4 := (hstep _ x hlast).2
      rw [h3] at h4
      exact absurd h4 (by decide)
  · rfl

/-- C1 (amended): for every spec whose reference graph is acyclic and all of
whose references name declared components or resolve through the ancestor
chain, wiring completes and every component declared in the spec appears in
the resulting ready mapping fully initialized, exactly once. -/
theorem claim_C1 : ∀ s : WSpec, ¬HasRefCycle s → RefsOk s (extOf []) →
    ∃ res, wireRoot s = some (Except.ok res) ∧
      (∀ n ∈ declaredNames s, (res.own.map Entry.name).count n = 1) ∧
      (∀ e ∈ res.own, e.status = Status.initialized) := by
  intro s hacy hok
  obtain ⟨ord, hbo⟩ := buildOrder_acyclic_ok hacy hok
  obtain ⟨⟨hnd, _, _⟩, hcomp⟩ := buildOrder_ok hbo
  refine ⟨⟨entriesOf s 0 ord, ord.flatMap (compNotifs s)⟩, ?_, ?_, ?_⟩
  · rw [wireRoot, wireIn, hbo]
  · intro n hn
    show ((entriesOf s 0 ord).map Entry.name).count n = 1
    rw [entriesOf_names]
    exact List.count_eq_one_of_mem hnd (hcomp n hn)
  · intro e he
    have h := (entriesOf_fields s ord 0 e he).1
    rw [h]
    rfl

/-- C1 witness: the amended theorem applied to the two component example. -/
theorem claim_C1_witness : ∃ res, wireRoot exSpec = some (Except.ok res) ∧
    (∀ n ∈ declaredNames exSpec, (res.own.map Entry.name).count n = 1) ∧
    (∀ e ∈ res.own, e.status = Status.initialized) :=
  claim_C1 exSpec
    (buildOrder_ok_acyclic
      (show buildOrder exSpec (extOf []) = some (Except.ok ["logger", "controller"])
        from rfl))
    (by decide)

/-- C2 counterexample: exMixed contains the reference cycle between a and b,
yet wiring rejects with the unresolved reference error, not the circular
reference error, because the traversal reaches the dangling reference x
first.  This falsifies the claim that every spec containing a cycle rejects
with the circular reference error. -/
theorem claim_C2_cex : HasRefCycle exMixed ∧
    wireRoot exMixed = some (Except.error WireErr.unresolvedReference) ∧
    wireRoot exMixed ≠ some (Except.error WireErr.circularReference) := by
  refine ⟨⟨"a", Relation.TransGen.head
    (show edge exMixed "a" "b" from ⟨⟨["x", "b"]⟩, rfl, by simp⟩)
    (Relation.TransGen.single
      (show edge exMixed "b" "a" from ⟨⟨["a"]⟩, rfl, by simp⟩))⟩, rfl, ?_⟩
  intro h
  rw [show wireRoot exMixed = some (Except.error WireErr.unresolvedReference) from rfl] at h
  injection h with h1
  injection h1 with h2
  exact WireErr.noConfusion h2

/-- C2 (amended): for every spec containing a reference cycle all of whose
references name declared components or resolve through the ancestor chain,
wiring rejects with the circular reference error, it does not loop forever,
and no instance from the cycle is present in any ready mapping because no
ready mapping is produced at all. -/
theorem claim_C2 : ∀ s : WSpec, HasRefCycle s → RefsOk s (extOf []) →
    wireRoot s = some (Except.error WireErr.circularReference) ∧
    ∀ res, wireRoot s ≠ some (Except.ok res) := by
  intro s hcyc hok
  have hbo := buildOrder_cycle_err hcyc hok
  constructor
  · rw [wireRoot, wireIn, hbo]
  · intro res h
    rw [wireRoot, wireIn, hbo] at h
    injection h with h1
    exact Except.noConfusion h1

/-- C2 witness: the amended theorem applied to the pure two component cycle. -/
theorem claim_C2_witness : wireRoot exA = some (Except.error WireErr.circularReference) :=
  (claim_C2 exA
    ⟨"a", Relation.TransGen.head
      (show edge exA "a" "b" from ⟨⟨["b"]⟩, rfl, by simp⟩)
      (Relation.TransGen.single
        (show edge exA "b" "a" from ⟨⟨["a"]⟩, rfl, by simp⟩))⟩
    (by decide)).1

/-- C3 counterexample: the debug plugin of src/wire/debug.js cannot consume a
progress notification shaped as the target status spec tuple the written
contract describes: logProgress calls then on the fields created, configured,
initialized and destroyed, which are undefined on that tuple, a TypeError.
The same code does consume an update carrying per stage promises. -/
theorem claim_C3_cex :
    logProgressS ⟨tupleUpdate, []⟩ = none ∧
    (logProgressS exDebugSt).isSome = true := ⟨rfl, rfl⟩

/-- C3 (amended): every progress notification broadcast on a lifecycle
transition carries a target naming a declared component, the status of the
transition, and the spec of that component; the debug plugin however consumes
lifecycle progress as an update object exposing per stage promise fields
created, configured, initialized and destroyed plus spec, with the target
delivered as the value of each stage promise. -/
theorem claim_C3 :
    (∀ (parent : Context) (s : WSpec) (res : WireResult) (nf : Notif),
      wireIn parent s = some (Except.ok res) → nf ∈ res.log →
      nf.target ∈ declaredNames s ∧ nf.spec = defOf s nf.target ∧
        nf.status ∈ lifecycleStatuses) ∧
    (∀ (c1 c2 c3 c4 : Except JVal JVal) (spc : JVal) (cs : List ConsoleItem),
      (logProgressS ⟨stageUpdate c1 c2 c3 c4 spc, cs⟩).isSome = true) := by
  constructor
  · intro parent s res nf hw hnf
    obtain ⟨ord, hbo, _, hlog⟩ := wireIn_ok_inv hw
    rw [hlog, List.mem_flatMap] at hnf
    obtain ⟨n, hn, hnf2⟩ := hnf
    obtain ⟨ht, hst, hsp⟩ := compNotifs_target nf hnf2
    have hsubd := (buildOrder_ok hbo).1.2.1
    exact ⟨ht ▸ hsubd n hn, by rw [hsp, ht], hst⟩
  · intro c1 c2 c3 c4 spc cs
    cases c1 <;> cases c2 <;> cases c3 <;> cases c4 <;> rfl

/-- C3 witness: the amended theorem applied to the first notification of the
example wiring and to a concrete promise shaped update. -/
theorem claim_C3_witness :
    (("logger" : Name) ∈ declaredNames exSpec ∧
      (⟨"logger", Status.created, ⟨[]⟩⟩ : Notif).spec =
        defOf exSpec (⟨"logger", Status.created, ⟨[]⟩⟩ : Notif).target ∧
      (⟨"logger", Status.created, ⟨[]⟩⟩ : Notif).status ∈ lifecycleStatuses) ∧
    (logProgressS ⟨stageUpdate (Except.ok JVal.undef) (Except.ok JVal.undef)
      (Except.ok JVal.undef) (Except.ok JVal.undef) JVal.undef, []⟩).isSome = true :=
  ⟨claim_C3.1 [] exSpec exRes ⟨"logger", Status.created, ⟨[]⟩⟩ rfl (by decide),
   claim_C3.2 (Except.ok JVal.undef) (Except.ok JVal.undef) (Except.ok JVal.undef)
     (Except.ok JVal.undef) JVal.undef []⟩

/-- C4: the debug module exposes its entry point under the name wire$plugin
taking the ready outcome, the destroy outcome and the options, and the plugin
host invokes the wire$plugin entry point exactly once per context per plugin
declaration: one invocation per declaration, in declaration order, each
through the wire$plugin entry. -/
theorem claim_C4 :
    wireDebug.«wire$plugin» = debugPlugin ∧
    ∀ decls : List PluginDecl,
      (invokePlugins decls).length = decls.length ∧
      ((invokePlugins decls).all fun inv => inv.entry == "wire$plugin") = true ∧
      ∀ d : PluginDecl,
        ((invokePlugins decls).filter fun inv => inv.decl == d).length = decls.count d := by
  refine ⟨rfl, fun decls => ⟨by simp [invokePlugins], by simp [invokePlugins], fun d => ?_⟩⟩
  rw [invokePlugins, ← List.countP_eq_length_filter, List.countP_map, List.count]
  rfl

/-- C5 counterexample: in ex5 the components b and c have no reference
relationship in either direction, b is declared before c, yet the creation
order lists c before b, because c is pulled in early as a dependency of a.
This falsifies the claim that independent components appear in spec
declaration order. -/
theorem claim_C5_cex :
    buildOrder ex5 (fun _ => false) = some (Except.ok ["c", "a", "b"]) ∧
    (¬Relation.TransGen (edge ex5) "b" "c") ∧ (¬Relation.TransGen (edge ex5) "c" "b") ∧
    posOf (declaredNames ex5) "b" < posOf (declaredNames ex5) "c" ∧
    posOf ["c", "a", "b"] "c" < posOf ["c", "a", "b"] "b" := by
  refine ⟨rfl, ?_, ?_, by decide, by decide⟩
  · apply no_out_no_transGen
    rintro y ⟨d, hf, hr⟩
    have he : findDef ex5 "b" = some ⟨[]⟩ := rfl
    rw [he] at hf
    injection hf with h1
    rw [← h1] at hr
    simp at hr
  · apply no_out_no_transGen
    rintro y ⟨d, hf, hr⟩
    have he : findDef ex5 "c" = some ⟨[]⟩ := rfl
    rw [he] at hf
    injection hf with h1
    rw [← h1] at hr
    simp at hr

/-- C5 (amended): every creation order the dependency graph builder produces
is a topological order of the reference graph, every componentwise reference
declared in the spec is created strictly before its dependent, the order
lists exactly the declared components without duplicates, and the output is
deterministic because the builder is a pure function of the spec; independent
components need not appear in declaration order when an earlier declared
component pulls a later one in as a dependency. -/
theorem claim_C5 : ∀ (s : WSpec) (ext : Name → Bool) (ord : List Name),
    buildOrder s ext = some (Except.ok ord) →
    TopoOrder s ord ∧ ord.Nodup ∧ ∀ n, n ∈ ord ↔ n ∈ declaredNames s := by
  intro s ext ord h
  obtain ⟨⟨hnd, hsub, htopo⟩, hcomp⟩ := buildOrder_ok h
  exact ⟨htopo, hnd, fun n => ⟨hsub n, hcomp n⟩⟩

/-- C5 witness: the amended theorem applied to ex5 and its computed order. -/
theorem claim_C5_witness : TopoOrder ex5 ["c", "a", "b"] ∧
    List.Nodup ["c", "a", "b"] ∧ ∀ n, n ∈ ["c", "a", "b"] ↔ n ∈ declaredNames ex5 :=
  claim_C5 ex5 (fun _ => false) ["c", "a", "b"] rfl

/-- C6: for every context produced by wiring, the order in which components
are destroyed on context destroy is exactly the reverse of the order in which
they were created, both as recorded in the owned entries and as produced by
the dependency graph builder. -/
theorem claim_C6 : ∀ (parent : Context) (s : WSpec) (res : WireResult),
    wireIn parent s = some (Except.ok res) →
    (destroyLog res.own).map Notif.target = (res.own.map Entry.name).reverse ∧
    ∀ ord, buildOrder s (extOf parent) = some (Except.ok ord) →
      (destroyLog res.own).map Notif.target = ord.reverse := by
  intro parent s res hw
  refine ⟨destroyLog_targets res.own, ?_⟩
  intro ord hbo
  obtain ⟨ord2, hbo2, hown, _⟩ := wireIn_ok_inv hw
  rw [hbo] at hbo2
  injection hbo2 with h1
  injection h1 with h2
  rw [destroyLog_targets, hown, entriesOf_names, ← h2]

/-- C6 witness: destroy order of the example wiring is the reverse of its
creation order logger then controller. -/
theorem claim_C6_witness :
    (destroyLog exRes.own).map Notif.target = (exRes.own.map Entry.name).reverse ∧
    (destroyLog exRes.own).map Notif.target = (["logger", "controller"] : List Name).reverse :=
  ⟨(claim_C6 [] exSpec exRes rfl).1,
   (claim_C6 [] exSpec exRes rfl).2 ["logger", "controller"] rfl⟩

/-- C7: for every child context and every name not declared in the child spec
but resolvable in the ancestor chain, resolving that name in the child
returns exactly the value the ancestor chain resolves, and the child owns no
instance under that name, so nothing was re-instantiated. -/
theorem claim_C7 : ∀ (parent : Context) (s : WSpec) (res : WireResult) (n : Name) (v : Nat),
    wireIn parent s = some (Except.ok res) → n ∉ declaredNames s →
    resolveCtx parent n = some v →
    resolveCtx (res.own :: parent) n = some v ∧ ∀ e ∈ res.own, e.name ≠ n := by
  intro parent s res n v hw hnd hres
  obtain ⟨ord, hbo, hown, _⟩ := wireIn_ok_inv hw
  have hsub := (buildOrder_ok hbo).1.2.1
  have hnames : ∀ e ∈ res.own, e.name ≠ n := by
    intro e he hne
    have hmem : e.name ∈ ord := by
      have h1 : e.name ∈ (entriesOf s 0 ord).map Entry.name :=
        List.mem_map_of_mem Entry.name (hown ▸ he)
      rwa [entriesOf_names] at h1
    exact hnd (hne ▸ hsub e.name hmem)
  refine ⟨?_, hnames⟩
  rw [resolveCtx, lookupEntry_none hnames]
  exact hres

/-- C7 witness: the child context wired from exChild under exParent resolves
name to the parent instance value 7 without owning a local instance. -/
theorem claim_C7_witness :
    resolveCtx (exChildRes.own :: exParent) "name" = some 7 ∧
    ∀ e ∈ exChildRes.own, e.name ≠ "name" :=
  claim_C7 exParent exChild exChildRes "name" 7 rfl (by decide) rfl

/-- C8: for every component of a successfully wired context, the progress
notifications targeting it appear in the log in the order created, configured,
initialized, and on context destroy exactly one destroyed notification is
emitted for it. -/
theorem claim_C8 : ∀ (parent : Context) (s : WSpec) (res : WireResult) (c : Name),
    wireIn parent s = some (Except.ok res) → c ∈ declaredNames s →
    (res.log.filter fun nf => nf.target == c).map Notif.status =
      [Status.created, Status.configured, Status.initialized] ∧
    ((destroyLog res.own).filter fun nf => nf.target == c).length = 1 := by
  intro parent s res c hw hc
  obtain ⟨ord, hbo, hown, hlog⟩ := wireIn_ok_inv hw
  obtain ⟨⟨hnd, _, _⟩, hcomp⟩ := buildOrder_ok hbo
  have hcord : c ∈ ord := hcomp c hc
  constructor
  · rw [hlog, log_filter ord hnd hcord]
    simp [compNotifs, lifecycleStatuses, List.map_map]
  · rw [destroyLog_count, hown, entriesOf_names]
    exact List.count_eq_one_of_mem hnd hcord

/-- C8 witness: lifecycle order and single destroyed notification for the
controller component of the example wiring. -/
theorem claim_C8_witness :
    (exRes.log.filter fun nf => nf.target == "controller").map Notif.status =
      [Status.created, Status.configured, Status.initialized] ∧
    ((destroyLog exRes.own).filter fun nf => nf.target == "controller").length = 1 :=
  claim_C8 [] exSpec exRes "controller" rfl (by decide)

/-- C9: a progress update is never mutated by the debug plugin: whenever the
handlers logProgress attaches for created, configured, initialized and
destroyed run, the update object and in particular its spec field are
unchanged, only console output is produced. -/
theorem claim_C9 : ∀ st st2 : DebugState, logProgressS st = some st2 →
    st2.update = st.update ∧ getField st2.update "spec" = getField st.update "spec" := by
  intro st st2 h
  simp only [logProgressS] at h
  split at h
  · exact Option.noConfusion h
  · split at h
    · exact Option.noConfusion h
    · split at h
      · exact Option.noConfusion h
      · split at h
        · exact Option.noConfusion h
        · injection h with h1
          subst h1
          exact ⟨rfl, rfl⟩

/-- C9 witness: the theorem applied to a concrete update with four resolved
stage promises. -/
theorem claim_C9_witness :
    exDebugSt2.update = exDebugSt.update ∧
    getField exDebugSt2.update "spec" = getField exDebugSt.update "spec" :=
  claim_C9 exDebugSt exDebugSt2 rfl

/-- C10: for every timer created by createTimer and every sequence of calls,
the total reported by the nth call equals the sum of the split times reported
by calls one through n, and when the clock readings are nondecreasing, as
physical time is, the reported totals are nondecreasing across calls. -/
theorem claim_C10 : ∀ (start : Int) (nows : List Int),
    (∀ i (hi : i < (runTimer (createTimer start) nows).length),
      ((runTimer (createTimer start) nows).get ⟨i, hi⟩).total =
        (((runTimer (createTimer start) nows).take (i + 1)).map TimeRec.split).sum) ∧
    (List.Chain' (fun a b => a ≤ b) nows →
      List.Chain' (fun a b => a ≤ b) ((runTimer (createTimer start) nows).map TimeRec.total)) := by
  intro start nows
  constructor
  · intro i hi
    have h := runTimer_total_sum nows start start i hi
    simpa using h
  · intro hch
    show List.Chain' _ ((runTimer ⟨start, start⟩ nows).map TimeRec.total)
    rw [runTimer_totals]
    rw [List.chain'_map]
    exact hch.imp fun hab => by omega

/-- C10 witness: the theorem applied to a timer created at clock 0 and called
at clocks 2 and 5. -/
theorem claim_C10_witness :
    ((runTimer (createTimer 0) [2, 5]).get ⟨1, by decide⟩).total =
      (((runTimer (createTimer 0) [2, 5]).take 2).map TimeRec.split).sum ∧
    List.Chain' (fun a b => a ≤ b) ((runTimer (createTimer 0) [2, 5]).map TimeRec.total) :=
  ⟨(claim_C10 0 [2, 5]).1 1 (by decide),
   (claim_C10 0 [2, 5]).2 (List.chain'_pair.2 (by norm_num))⟩

end Wire
